import Mathlib

/-!
Shallow embedding of `src/controller.py` (class `ShardHandler`), a text-file
sharding demo: a corpus is split into `data/{i}.txt` primary shards whose byte
ranges are recorded in `mapping.json`, with replicas stored as
`data/{i}-{level}.txt`.  File contents are modelled as `List Char` (Python
reads the files in text mode), the `data/` directory as an association list
from structured file keys to contents, and `mapping.json` as an optional
association list from shard id to byte range.  Python's unbounded recursion in
`sync_replication` is modelled with an explicit fuel parameter; termination of
the source recursion is the subject of a dedicated theorem.
-/

set_option maxRecDepth 4000

/-- Contents of one file, as read by Python in text mode. -/
abbrev Content := List Char

/-- One value of the persisted mapping: the dict `{'start': _, 'end': _}`
written by `ShardHandler._write_shard` (`end` is a Lean keyword, so the field
is named `stop`). -/
structure ShardRange where
  start : Nat
  stop : Nat
deriving DecidableEq

/-- The persisted mapping `mapping.json`: keys (Python strings `str(num)`,
modelled by the numeral itself since `str`/`int` round-trip) to byte ranges,
in Python dict insertion order. -/
abbrev Mapping := List (Nat × ShardRange)

/-- A file inside the `data/` directory: `"{id}.txt"` for a primary shard,
`"{id}-{level}.txt"` for a replica. -/
inductive FKey where
  | primary (id : Nat)
  | replica (id : Nat) (lvl : Nat)
deriving DecidableEq

/-- Storage state: the `data/` directory (in directory-listing order),
`mapping.json` (none when the file does not exist), and the names of the
other regular files in the process working directory (`controller.py`,
`chapter2.txt`, ...), which matter because `sync_replication` line 230
evaluates `os.path.isfile(name)` on bare names from `os.listdir('data/')`,
i.e. relative to the working directory. -/
structure FS where
  data : List (FKey × Content)
  mapfile : Option Mapping
  cwdNames : List String
deriving DecidableEq

/-- The mutable attributes of a `ShardHandler` instance. -/
structure Handler where
  mapping : Mapping
  last_char_position : Nat
  rep_count : Nat
deriving DecidableEq

/-- Python exceptions that the modelled code can raise. -/
inductive PyErr where
  | fileNotFound
  | zeroDivisionError
  | valueError
  | indexError
deriving DecidableEq

/-- Lookup in the `data/` directory (first entry with the given key). -/
def lookupFKey : List (FKey × Content) → FKey → Option Content
  | [], _ => none
  | e :: l, k => if e.fst = k then some e.snd else lookupFKey l k

/-- Overwrite-or-create a file: replace the first entry with the key in
place, or append a fresh directory entry. -/
def setEntry : List (FKey × Content) → FKey → Content → List (FKey × Content)
  | [], k, c => [(k, c)]
  | e :: l, k, c => if e.fst = k then (k, c) :: l else e :: setEntry l k c

/-- `os.remove` of a file in `data/`. -/
def removeEntry : List (FKey × Content) → FKey → List (FKey × Content)
  | [], _ => []
  | e :: l, k => if e.fst = k then removeEntry l k else e :: removeEntry l k

def fsRead (fs : FS) (k : FKey) : Option Content :=
  lookupFKey fs.data k

def fsWrite (fs : FS) (k : FKey) (c : Content) : FS :=
  { fs with data := setEntry fs.data k c }

def fsRemove (fs : FS) (k : FKey) : FS :=
  { fs with data := removeEntry fs.data k }

/-- `os.path.exists` for a file in `data/`. -/
def fsExists (fs : FS) (k : FKey) : Bool :=
  (fsRead fs k).isSome

/-- Python dict lookup `self.mapping[str(key)]` / `.get`. -/
def lookupRange : Mapping → Nat → Option ShardRange
  | [], _ => none
  | e :: m, k => if e.fst = k then some e.snd else lookupRange m k

/-- Python dict `self.mapping.update({str(num): ...})`: replace in place if
the key is present, append otherwise. -/
def update_entry : Mapping → Nat → ShardRange → Mapping
  | [], k, r => [(k, r)]
  | e :: m, k, r => if e.fst = k then (k, r) :: m else e :: update_entry m k r

/-- `ShardHandler.load_map`: the persisted mapping, or an empty dict when
`mapping.json` does not exist. -/
def load_map (fs : FS) : Mapping :=
  fs.mapfile.getD []

/-- `ShardHandler.write_map`: dump `self.mapping` to `mapping.json`. -/
def write_map (h : Handler) (fs : FS) : FS :=
  { fs with mapfile := some h.mapping }

/-- Insert into a sorted list, for `list.sort()`. -/
def insertSorted (n : Nat) : List Nat → List Nat
  | [] => [n]
  | m :: ms => if n ≤ m then n :: m :: ms else m :: insertSorted n ms

/-- Python `keys.sort()` on the `int`-converted mapping keys. -/
def sortNats : List Nat → List Nat
  | [] => []
  | n :: ns => insertSorted n (sortNats ns)

/-- Python `max(keys)` on a list known to be non-empty. -/
def maxNat (l : List Nat) : Nat :=
  l.foldr max 0

/-- `result[-1] += tail` from `_generate_sharded_data` (on the empty list
Python would raise `IndexError`; the call sites pass a non-empty list). -/
def appendToLast : List Content → Content → List Content
  | [], _ => []
  | [x], t => [x ++ t]
  | x :: y :: xs, t => x :: appendToLast (y :: xs) t

/-- Python `result[i]` on a list of slices, with `[]` default (only applied
at indices below the length). -/
def nthContent : List Content → Nat → Content
  | [], _ => []
  | c :: _, 0 => c
  | _ :: l, i + 1 => nthContent l i

/-- `ShardHandler._generate_sharded_data`: `splicenum, rem = divmod(len(data),
count)`, slices `data[splicenum*z : splicenum*(z+1)]` for `z in range(count)`,
and the remainder appended to the last slice.  `divmod` with `count = 0`
raises `ZeroDivisionError`. -/
def generate_sharded_data (count : Nat) (data : Content) : Except PyErr (List Content) :=
  if count = 0 then .error .zeroDivisionError
  else
    let splicenum := data.length / count
    let rem := data.length % count
    let result := (List.range count).map
      (fun z => (data.drop (splicenum * z)).take (splicenum * (z + 1) - splicenum * z))
    .ok (if 0 < rem then appendToLast result (data.drop (data.length - rem)) else result)

/-- `ShardHandler._write_shard`: write `data/{num}.txt`, reset the running
char position when `num = 0`, record the range
`start = pos if pos == 0 else pos + 1`, `end = pos + len(data)`, then advance
the position by `len(data)`. -/
def write_shard (h : Handler) (fs : FS) (num : Nat) (d : Content) : Handler × FS :=
  let fs1 := fsWrite fs (.primary num) d
  let h1 := if num = 0 then { h with last_char_position := 0 } else h
  let st := if h1.last_char_position = 0 then h1.last_char_position
            else h1.last_char_position + 1
  let h2 := { h1 with
    mapping := update_entry h1.mapping num ⟨st, h1.last_char_position + d.length⟩ }
  ({ h2 with last_char_position := h2.last_char_position + d.length }, fs1)

/-- `for num, d in enumerate(spliced_data): self._write_shard(num, d)`,
with `n` the enumeration counter. -/
def writeEnum (h : Handler) (fs : FS) (n : Nat) : List Content → Handler × FS
  | [] => (h, fs)
  | d :: l =>
    let p := write_shard h fs n d
    writeEnum p.1 p.2 (n + 1) l

/-- Result of `ShardHandler.build_shards`, with the handler and storage state
at return/raise time.  `alreadySharded` is the returned message string
"Cannot build shard setup -- sharding already exists."; `zeroDivisionError`
is the uncaught exception out of `divmod(len(data), 0)`. -/
inductive BuildResult where
  | alreadySharded (h : Handler) (fs : FS)
  | zeroDivisionError (h : Handler) (fs : FS)
  | ok (h : Handler) (fs : FS)
deriving DecidableEq

/-- `ShardHandler.build_shards`. -/
def build_shards (h : Handler) (fs : FS) (count : Nat) (data : Content) : BuildResult :=
  if h.mapping ≠ [] then .alreadySharded h fs
  else
    match generate_sharded_data count data with
    | .error _ => .zeroDivisionError h fs
    | .ok spliced =>
      let p := writeEnum h fs 0 spliced
      .ok p.1 (write_map p.1 p.2)

def buildMapping : BuildResult → Mapping
  | .alreadySharded h _ => h.mapping
  | .zeroDivisionError h _ => h.mapping
  | .ok h _ => h.mapping

def buildFS : BuildResult → FS
  | .alreadySharded _ fs => fs
  | .zeroDivisionError _ fs => fs
  | .ok _ fs => fs

def buildIsOk : BuildResult → Bool
  | .ok _ _ => true
  | _ => false

/-- The loop body of `ShardHandler.load_data_from_shards`: read
`data/{db}.txt` for each mapping key (in dict insertion order) and
concatenate; `open` raises `FileNotFoundError` on a missing file. -/
def readConcat (fs : FS) : List Nat → Except PyErr Content
  | [] => .ok []
  | k :: ks =>
    match fsRead fs (.primary k) with
    | none => .error .fileNotFound
    | some c =>
      match readConcat fs ks with
      | .error e => .error e
      | .ok rest => .ok (c ++ rest)

/-- `ShardHandler.load_data_from_shards`. -/
def load_data_from_shards (h : Handler) (fs : FS) : Except PyErr Content :=
  readConcat fs (h.mapping.map Prod.fst)

/-- The on-disk name of a `data/` entry, as returned by
`os.listdir('data/')`. -/
def fkeyName : FKey → String
  | .primary i => toString i ++ ".txt"
  | .replica i l => toString i ++ "-" ++ toString l ++ ".txt"

/-- `os.path.isfile(name)` for a bare name: it is resolved against the
process working directory, not against `data/`. -/
def isfileCwd (fs : FS) (name : String) : Bool :=
  fs.cwdNames.contains name || (name == "mapping.json" && fs.mapfile.isSome)

/-- `max_files` from `sync_replication` lines 230-231:
`len([name for name in os.listdir('data/') if os.path.isfile(name)])`. -/
def max_files (fs : FS) : Nat :=
  ((fs.data.map (fun e => fkeyName e.fst)).filter (isfileCwd fs)).length

/-- The `while i <= max_files` loop of `sync_replication` for a shard whose
primary exists (`a` is the primary's content, read once before the loop):
overwrite each probed replica that differs from the primary.  The argument
`n` counts the remaining iterations (`max_files + 1` at loop entry). -/
def syncPrimLoop (key : Nat) (a : Content) : Nat → Handler → FS → Handler × FS
  | 0, h, fs => (h, fs)
  | n + 1, h, fs =>
    syncPrimLoop key a n { h with rep_count := h.rep_count + 1 }
      (if fsExists fs (.replica key h.rep_count) then
        (if a ≠ (fsRead fs (.replica key h.rep_count)).getD []
          then fsWrite fs (.replica key h.rep_count) a
          else fs)
        else fs)

/-- The `while i <= max_files` loop of `sync_replication` for a shard whose
primary is missing: if a probed replica's length equals the mapping's
`end - start` (Python `int` subtraction, hence `Int` here), write it back as
the primary and re-run the whole pass (`recurse`), then keep scanning;
otherwise report corrupted data and keep scanning.  The mapping lookup
`self.mapping[f'{key}']` is total at the call sites (the keys are drawn from
`self.mapping` and the mapfile is never rewritten during a pass), so the
Python `KeyError` path is collapsed with `getD`. -/
def syncMissLoop (recurse : Handler → FS → Except Unit (Handler × FS)) (key : Nat) :
    Nat → Handler → FS → Except Unit (Handler × FS)
  | 0, h, fs => .ok (h, fs)
  | n + 1, h, fs =>
    if fsExists fs (.replica key h.rep_count) then
      if ((((lookupRange h.mapping key).getD ⟨0, 0⟩).stop : Int) -
            (((lookupRange h.mapping key).getD ⟨0, 0⟩).start : Int) =
            (((fsRead fs (.replica key h.rep_count)).getD []).length : Int)) then
        match recurse h (fsWrite fs (.primary key)
            ((fsRead fs (.replica key h.rep_count)).getD [])) with
        | .error e => .error e
        | .ok p => syncMissLoop recurse key n { p.1 with rep_count := p.1.rep_count + 1 } p.2
      else
        syncMissLoop recurse key n { h with rep_count := h.rep_count + 1 } fs
    else
      syncMissLoop recurse key n { h with rep_count := h.rep_count + 1 } fs

/-- The `for key in keys` loop of `sync_replication`: per key, reset
`i = 0`, `self.rep_count = 1`, then branch on whether the primary exists. -/
def syncKeys (recurse : Handler → FS → Except Unit (Handler × FS)) (mf : Nat) :
    List Nat → Handler → FS → Except Unit (Handler × FS)
  | [], h, fs => .ok (h, fs)
  | key :: rest, h, fs =>
    if fsExists fs (.primary key) then
      syncKeys recurse mf rest
        (syncPrimLoop key ((fsRead fs (.primary key)).getD []) (mf + 1)
          { h with rep_count := 1 } fs).1
        (syncPrimLoop key ((fsRead fs (.primary key)).getD []) (mf + 1)
          { h with rep_count := 1 } fs).2
    else
      match syncMissLoop recurse key (mf + 1) { h with rep_count := 1 } fs with
      | .error e => .error e
      | .ok p => syncKeys recurse mf rest p.1 p.2

/-- `ShardHandler.sync_replication` with an explicit fuel bound on the depth
of the self-recursion at line 267; `.error ()` marks fuel exhaustion (the
Python code just recurses unboundedly). -/
def sync_fuel : Nat → Handler → FS → Except Unit (Handler × FS)
  | 0, _, _ => .error ()
  | fuel + 1, h, fs =>
    syncKeys (sync_fuel fuel) (max_files fs) (sortNats ((load_map fs).map Prod.fst))
      { h with mapping := load_map fs } fs

/-- The number of mapping keys whose primary shard file is missing: the
quantity that bounds the recursion depth of `sync_replication`. -/
def missingCount (fs : FS) : Nat :=
  (((load_map fs).map Prod.fst).filter (fun k => !(fsExists fs (.primary k)))).length

/-- `ShardHandler.sync_replication`: the fuel `missingCount fs + 1` is
sufficient (proved below), so this is the total function computed by the
Python recursion. -/
def sync_replication (h : Handler) (fs : FS) : Except Unit (Handler × FS) :=
  sync_fuel (missingCount fs + 1) h fs

/-- The `while os.path.exists(f'data/{keys[0]}-{self.rep_count}.txt')` search
in `add_replication`; the fuel `fs.data.length + 1` exceeds the number of
files, so the search always reaches a free level exactly as Python's loop. -/
def nextFreeLevelAux (fs : FS) (k : Nat) : Nat → Nat → Nat
  | 0, r => r
  | n + 1, r => if fsExists fs (.replica k r) then nextFreeLevelAux fs k n (r + 1) else r

def nextFreeLevel (fs : FS) (k : Nat) (r : Nat) : Nat :=
  nextFreeLevelAux fs k (fs.data.length + 1) r

/-- Result of an operation, with the handler and storage state at
return/raise time.  `earlyReturn` is `remove_shard`'s `return
FileNotFoundError` (the class is returned, not raised); `nonterm` marks fuel
exhaustion of the modelled `sync_replication` recursion (unreachable, per the
termination theorem). -/
inductive OpResult where
  | ok (h : Handler) (fs : FS)
  | earlyReturn (h : Handler) (fs : FS)
  | exn (e : PyErr) (h : Handler) (fs : FS)
  | nonterm (h : Handler) (fs : FS)
deriving DecidableEq

def opHandler : OpResult → Handler
  | .ok h _ => h
  | .earlyReturn h _ => h
  | .exn _ h _ => h
  | .nonterm h _ => h

def opFS : OpResult → FS
  | .ok _ fs => fs
  | .earlyReturn _ fs => fs
  | .exn _ _ fs => fs
  | .nonterm _ fs => fs

def opIsOk : OpResult → Bool
  | .ok _ _ => true
  | _ => false

/-- The copy loop of `add_replication`: for each key read the primary
(raising `FileNotFoundError` if absent) and write it to level `r`. -/
def copyLoop (r : Nat) (fs : FS) : List Nat → Except (PyErr × FS) FS
  | [] => .ok fs
  | k :: ks =>
    match fsRead fs (.primary k) with
    | none => .error (.fileNotFound, fs)
    | some a => copyLoop r (fsWrite fs (.replica k r) a) ks

/-- `ShardHandler.add_replication`.  Note line 182 of the source is
`self.sync_replication` without parentheses: the bound method is evaluated
and discarded, so no sync pass runs before returning. -/
def add_replication (h : Handler) (fs : FS) : OpResult :=
  let h1 := { h with mapping := load_map fs }
  let keys := sortNats (h1.mapping.map Prod.fst)
  match keys with
  | [] => .exn .indexError h1 fs
  | k0 :: _ =>
    let h2 :=
      if fsExists fs (.replica k0 h1.rep_count) then
        { h1 with rep_count := nextFreeLevel fs k0 h1.rep_count }
      else h1
    match copyLoop h2.rep_count fs keys with
    | .error p => .exn p.1 h2 p.2
    | .ok fs1 => .ok h2 fs1

/-- The deletion loop of `remove_shard`: check `os.path.exists` then
`os.remove` for each key; on a missing file the Python function returns the
`FileNotFoundError` class (`.error` carries the partially-deleted state). -/
def removeLoop (fs : FS) : List Nat → Except FS FS
  | [] => .ok fs
  | k :: ks =>
    if fsExists fs (.primary k) then removeLoop (fsRemove fs (.primary k)) ks
    else .error fs

/-- The tail of `remove_shard` after `os.remove('mapping.json')` and the
mapping reload: rewrite the shards, persist the new mapping, and run
`sync_replication()` (whose modelled fuel is always sufficient, per the
termination theorem, so `nonterm` is unreachable). -/
def remove_finish (h2 : Handler) (fs2 : FS) (spliced : List Content) : OpResult :=
  match sync_replication (writeEnum h2 fs2 0 spliced).1
      (write_map (writeEnum h2 fs2 0 spliced).1 (writeEnum h2 fs2 0 spliced).2) with
  | .ok q => .ok q.1 q.2
  | .error _ => .nonterm (writeEnum h2 fs2 0 spliced).1
      (write_map (writeEnum h2 fs2 0 spliced).1 (writeEnum h2 fs2 0 spliced).2)

/-- `ShardHandler.remove_shard`.  `keys` is written out as
`sortNats ((load_map fs).map Prod.fst)` (the reloaded `self.mapping`'s keys,
sorted); `max([])` raising `ValueError` is the empty-keys test; a missing
`mapping.json` at the `os.remove` step raises `FileNotFoundError`; the
handler passed on carries the mapping reloaded after the removal
(an empty dict, since the file is gone). -/
def remove_shard (h : Handler) (fs : FS) : OpResult :=
  match load_data_from_shards { h with mapping := load_map fs } fs with
  | .error e => .exn e { h with mapping := load_map fs } fs
  | .ok data =>
    match removeLoop fs (sortNats ((load_map fs).map Prod.fst)) with
    | .error fs1 => .earlyReturn { h with mapping := load_map fs } fs1
    | .ok fs1 =>
      if sortNats ((load_map fs).map Prod.fst) = [] then
        .exn .valueError { h with mapping := load_map fs } fs1
      else
        match generate_sharded_data (maxNat (sortNats ((load_map fs).map Prod.fst))) data with
        | .error e => .exn e { h with mapping := load_map fs } fs1
        | .ok spliced =>
          match fs1.mapfile with
          | none => .exn .fileNotFound { h with mapping := load_map fs } fs1
          | some _ =>
            remove_finish { h with mapping := load_map { fs1 with mapfile := none } }
              { fs1 with mapfile := none } spliced

/-- An argument as passed to `get_shard_data`: Python `None`, an `int`, or a
`str`. -/
inductive PyArg where
  | none
  | int (n : Int)
  | str (s : String)
deriving DecidableEq

/-- Python truthiness of such an argument: `None`, `0` and `""` are falsy. -/
def argFalsy : PyArg → Bool
  | .none => true
  | .int n => n = 0
  | .str s => s = ""

/-- Result of `get_shard_data`: the full mapping dict, the "Invalid shard
ID" message (which interpolates the current keys), or one shard's info. -/
inductive GetResult where
  | allData (m : Mapping)
  | invalid (m : Mapping)
  | info (id : Nat) (r : ShardRange)
deriving DecidableEq

/-- `self.mapping.get(shardnum)`: dict keys are the strings `str(num)`, so an
`int` argument never matches a key and a `str` argument matches the key whose
decimal rendering it equals. -/
def mappingGet (m : Mapping) : PyArg → Option (Nat × ShardRange)
  | .none => Option.none
  | .int _ => Option.none
  | .str s => m.find? (fun e => toString e.fst == s)

/-- `ShardHandler.get_all_shard_data`. -/
def get_all_shard_data (h : Handler) : Mapping :=
  h.mapping

/-- `ShardHandler.get_shard_data`: `if not shardnum: return
self.get_all_shard_data()`, else a dict lookup. -/
def get_shard_data (h : Handler) (shardnum : PyArg) : GetResult :=
  if argFalsy shardnum then .allData (get_all_shard_data h)
  else
    match mappingGet h.mapping shardnum with
    | Option.none => .invalid h.mapping
    | Option.some e => .info e.fst e.snd

/-! ## Concrete states used by the evaluation theorems -/

/-- A freshly constructed handler in a directory with no `mapping.json`:
`__init__` loads an empty mapping and sets `last_char_position = 0`,
`rep_count = 1`. -/
def H0 : Handler := ⟨[], 0, 1⟩

/-- The regular files of the repository's working directory. -/
def cwd0 : List String := ["controller.py", "chapter2.txt"]

/-- Empty storage: no `data/` files, no `mapping.json`. -/
def FS0 : FS := ⟨[], none, cwd0⟩

/-- The 10-byte corpus of the spec's concrete scenario. -/
def corpus10 : Content := "ABCDEFGHIJ".toList

/-- The 11-byte corpus of the spec's second concrete scenario. -/
def corpus11 : Content := "ABCDEFGHIJK".toList

/-- C1 scenario: state persisted by `buildShards(5, "ABCDEFGHIJ")`. -/
def fsBuilt5 : FS := buildFS (build_shards H0 FS0 5 corpus10)

/-- C3 scenario: shard 0's primary deleted out-of-band, a single
byte-length-matching replica left at level 2. -/
def hC3 : Handler := ⟨[(0, ⟨0, 2⟩)], 0, 1⟩

def fsC3 : FS := ⟨[(FKey.replica 0 2, ['A', 'B'])], some [(0, ⟨0, 2⟩)], cwd0⟩

/-- C4 scenario: shard 0 with an in-sync level-1 replica and a drifted
level-2 replica. -/
def hC4 : Handler := ⟨[(0, ⟨0, 2⟩)], 0, 1⟩

def fsC4 : FS :=
  ⟨[(FKey.primary 0, ['A', 'B']), (FKey.replica 0 1, ['A', 'B']),
    (FKey.replica 0 2, ['X', 'X'])], some [(0, ⟨0, 2⟩)], cwd0⟩

/-- C6 scenario: shard 0 with a drifted level-1 replica. -/
def hC6 : Handler := ⟨[(0, ⟨0, 2⟩)], 0, 1⟩

def fsC6 : FS :=
  ⟨[(FKey.primary 0, ['A', 'B']), (FKey.replica 0 1, ['X', 'Y'])],
   some [(0, ⟨0, 2⟩)], cwd0⟩

/-- C10 exercise scenario: one missing primary with a restorable replica. -/
def hC10w : Handler := ⟨[(0, ⟨0, 2⟩)], 0, 1⟩

def fsC10w : FS := ⟨[(FKey.replica 0 1, ['A', 'B'])], some [(0, ⟨0, 2⟩)], cwd0⟩

/-- C8 witness scenario: two shards holding "A" and "B". -/
def hC8 : Handler := ⟨[], 0, 1⟩

def mC8 : Mapping := [(0, ⟨0, 1⟩), (1, ⟨2, 2⟩)]

def fsC8 : FS :=
  ⟨[(FKey.primary 0, ['A']), (FKey.primary 1, ['B'])], some mC8, cwd0⟩

/-- Evolution invariant of one `sync_replication` pass: the mapping file is
never rewritten and primary shard files are never deleted (the pass only
writes). -/
def SyncPost (fs fs' : FS) : Prop :=
  fs'.mapfile = fs.mapfile ∧
  ∀ k, fsExists fs (.primary k) = true → fsExists fs' (.primary k) = true

/-! ## Basic lemmas about the storage primitives -/

theorem lookupFKey_setEntry_same (l : List (FKey × Content)) (k : FKey) (c : Content) :
    lookupFKey (setEntry l k c) k = some c := by
  induction l with
  | nil => simp [setEntry, lookupFKey]
  | cons e l ih =>
    by_cases he : e.fst = k
    · simp [setEntry, he, lookupFKey]
    · simp [setEntry, he, lookupFKey, ih]

theorem lookupFKey_setEntry_ne (l : List (FKey × Content)) {k k' : FKey} (c : Content)
    (h : k' ≠ k) : lookupFKey (setEntry l k c) k' = lookupFKey l k' := by
  have hk : k ≠ k' := Ne.symm h
  induction l with
  | nil => simp [setEntry, lookupFKey, hk]
  | cons e l ih =>
    by_cases he : e.fst = k
    · subst he
      simp [setEntry, lookupFKey, hk]
    · simp [setEntry, he, lookupFKey, ih]

theorem lookupFKey_removeEntry_ne (l : List (FKey × Content)) {k k' : FKey}
    (h : k' ≠ k) : lookupFKey (removeEntry l k) k' = lookupFKey l k' := by
  have hk : k ≠ k' := Ne.symm h
  induction l with
  | nil => simp [removeEntry]
  | cons e l ih =>
    by_cases he : e.fst = k
    · subst he
      simp [removeEntry, lookupFKey, hk, ih]
    · simp [removeEntry, he, lookupFKey, ih]

theorem fsRead_fsWrite_same (fs : FS) (k : FKey) (c : Content) :
    fsRead (fsWrite fs k c) k = some c :=
  lookupFKey_setEntry_same fs.data k c

theorem fsRead_fsWrite_ne (fs : FS) {k k' : FKey} (c : Content) (h : k' ≠ k) :
    fsRead (fsWrite fs k c) k' = fsRead fs k' :=
  lookupFKey_setEntry_ne fs.data c h

theorem fsRead_fsRemove_ne (fs : FS) {k k' : FKey} (h : k' ≠ k) :
    fsRead (fsRemove fs k) k' = fsRead fs k' :=
  lookupFKey_removeEntry_ne fs.data h

theorem fsWrite_mapfile (fs : FS) (k : FKey) (c : Content) :
    (fsWrite fs k c).mapfile = fs.mapfile := rfl

theorem fsRemove_mapfile (fs : FS) (k : FKey) :
    (fsRemove fs k).mapfile = fs.mapfile := rfl

theorem fsWrite_cwdNames (fs : FS) (k : FKey) (c : Content) :
    (fsWrite fs k c).cwdNames = fs.cwdNames := rfl

theorem fsExists_fsWrite_mono {fs : FS} {j : FKey} (k : FKey) (c : Content)
    (h : fsExists fs j = true) : fsExists (fsWrite fs k c) j = true := by
  by_cases hjk : j = k
  · subst hjk
    simp [fsExists, fsRead_fsWrite_same]
  · rw [fsExists, fsRead_fsWrite_ne fs c hjk]
    exact h

theorem load_map_congr {fs fs' : FS} (h : fs'.mapfile = fs.mapfile) :
    load_map fs' = load_map fs := by
  rw [load_map, load_map, h]

/-! ## Lemmas about dict updates, sorting and list helpers -/

theorem update_entry_ids_fresh {m : Mapping} {k : Nat} (r : ShardRange)
    (h : k ∉ m.map Prod.fst) :
    (update_entry m k r).map Prod.fst = m.map Prod.fst ++ [k] := by
  induction m with
  | nil => simp [update_entry]
  | cons e m ih =>
    simp only [List.map_cons, List.mem_cons, not_or] at h
    have hek : e.fst ≠ k := fun he => h.1 he.symm
    simp [update_entry, hek, ih h.2]

theorem mem_insertSorted {x n : Nat} {l : List Nat} :
    x ∈ insertSorted n l ↔ x = n ∨ x ∈ l := by
  induction l with
  | nil => simp [insertSorted]
  | cons m ms ih =>
    by_cases hn : n ≤ m
    · simp [insertSorted, hn]
    · simp [insertSorted, hn, ih]
      tauto

theorem mem_sortNats {x : Nat} {l : List Nat} : x ∈ sortNats l ↔ x ∈ l := by
  induction l with
  | nil => simp [sortNats]
  | cons n ns ih => simp [sortNats, mem_insertSorted, ih]

theorem sortNats_eq_self {l : List Nat} (h : l.Pairwise (· ≤ ·)) :
    sortNats l = l := by
  induction l with
  | nil => rfl
  | cons n ns ih =>
    rw [List.pairwise_cons] at h
    rw [sortNats, ih h.2]
    cases ns with
    | nil => rfl
    | cons m ms => rw [insertSorted, if_pos (h.1 m (List.mem_cons_self m ms))]

theorem sortNats_range (n : Nat) : sortNats (List.range n) = List.range n :=
  sortNats_eq_self ((List.pairwise_lt_range n).imp Nat.le_of_lt)

theorem foldr_max_eq {l : List Nat} {n : Nat} (h : ∀ x ∈ l, x ≤ n) :
    l.foldr max n = n := by
  induction l with
  | nil => rfl
  | cons x xs ih =>
    rw [List.foldr_cons, ih fun y hy => h y (List.mem_cons_of_mem x hy)]
    exact Nat.max_eq_right (h x (List.mem_cons_self x xs))

theorem maxNat_range_succ (n : Nat) : maxNat (List.range (n + 1)) = n := by
  rw [maxNat, List.range_succ, List.foldr_append, List.foldr_cons, List.foldr_nil,
    Nat.max_eq_left (Nat.zero_le n)]
  exact foldr_max_eq fun x hx => Nat.le_of_lt (List.mem_range.mp hx)

theorem appendToLast_length (l : List Content) (t : Content) :
    (appendToLast l t).length = l.length := by
  induction l with
  | nil => rfl
  | cons x xs ih =>
    cases xs with
    | nil => rfl
    | cons y ys =>
      show (appendToLast (y :: ys) t).length + 1 = (y :: ys).length + 1
      rw [ih]

theorem appendToLast_flatten {l : List Content} (t : Content) (h : l ≠ []) :
    (appendToLast l t).flatten = l.flatten ++ t := by
  induction l with
  | nil => exact absurd rfl h
  | cons x xs ih =>
    cases xs with
    | nil => simp [appendToLast]
    | cons y ys =>
      show (x :: appendToLast (y :: ys) t).flatten = (x :: y :: ys : List Content).flatten ++ t
      rw [List.flatten_cons, List.flatten_cons, ih (by simp), List.append_assoc]

theorem nthContent_appendToLast {l : List Content} {i : Nat} (t : Content)
    (h : i + 1 < l.length) : nthContent (appendToLast l t) i = nthContent l i := by
  induction l generalizing i with
  | nil => simp at h
  | cons x xs ih =>
    cases xs with
    | nil => simp at h
    | cons y ys =>
      cases i with
      | zero => rfl
      | succ j =>
        show nthContent (appendToLast (y :: ys) t) j = nthContent (y :: ys) j
        exact ih (Nat.lt_of_succ_lt_succ h)

theorem nthContent_appendToLast_last {l : List Content} (t : Content) (h : l ≠ []) :
    nthContent (appendToLast l t) (l.length - 1) = nthContent l (l.length - 1) ++ t := by
  induction l with
  | nil => exact absurd rfl h
  | cons x xs ih =>
    cases xs with
    | nil => rfl
    | cons y ys =>
      have hx : appendToLast (x :: y :: ys) t = x :: appendToLast (y :: ys) t := rfl
      have hlen : (x :: y :: ys).length - 1 = ((y :: ys).length - 1) + 1 := by
        simp [List.length_cons]
      rw [hx, hlen]
      show nthContent (appendToLast (y :: ys) t) ((y :: ys).length - 1) =
        nthContent (y :: ys) ((y :: ys).length - 1) ++ t
      exact ih (by simp)

theorem nthContent_map_range {n i : Nat} (f : Nat → Content) (h : i < n) :
    nthContent ((List.range n).map f) i = f i := by
  induction n generalizing i f with
  | zero => exact absurd h (Nat.not_lt_zero i)
  | succ n ih =>
    rw [List.range_succ_eq_map]
    cases i with
    | zero => rfl
    | succ j =>
      simp only [List.map_cons, List.map_map]
      show nthContent ((List.range n).map (f ∘ Nat.succ)) j = f (j + 1)
      exact ih (f ∘ Nat.succ) (Nat.lt_of_succ_lt_succ h)

theorem map_range_nthContent (l : List Content) :
    (List.range l.length).map (nthContent l) = l := by
  induction l with
  | nil => rfl
  | cons c cs ih =>
    rw [List.length_cons, List.range_succ_eq_map, List.map_cons, List.map_map]
    show nthContent (c :: cs) 0 :: (List.range cs.length).map (nthContent (c :: cs) ∘ Nat.succ) =
      c :: cs
    have hcomp : nthContent (c :: cs) ∘ Nat.succ = nthContent cs := rfl
    rw [hcomp, ih]
    rfl

/-! ## Lemmas about the split policy -/

theorem slice_width (s z : Nat) : s * (z + 1) - s * z = s := by
  rw [Nat.mul_succ]
  omega

theorem chunks_flatten (data : Content) (s : Nat) :
    ∀ count, ((List.range count).map (fun z => (data.drop (s * z)).take s)).flatten =
      data.take (s * count)
  | 0 => by simp
  | count + 1 => by
    rw [List.range_succ, List.map_append, List.flatten_append, chunks_flatten data s count]
    simp only [List.map_cons, List.map_nil, List.flatten_cons, List.flatten_nil,
      List.append_nil]
    rw [Nat.mul_succ, List.take_add]

/-- Normal form of `_generate_sharded_data` for a non-zero count. -/
theorem generate_eq {count : Nat} (data : Content) (h : count ≠ 0) :
    generate_sharded_data count data =
      .ok (if 0 < data.length % count then
              appendToLast ((List.range count).map
                (fun z => (data.drop (data.length / count * z)).take (data.length / count)))
                (data.drop (data.length - data.length % count))
            else (List.range count).map
                (fun z => (data.drop (data.length / count * z)).take (data.length / count))) := by
  unfold generate_sharded_data
  rw [if_neg h]
  have hs : ∀ z, data.length / count * (z + 1) - data.length / count * z =
      data.length / count := fun z => slice_width _ z
  simp only [hs]

theorem generate_count_pos {count : Nat} {data : Content} {spliced : List Content}
    (h : generate_sharded_data count data = .ok spliced) : 0 < count := by
  rcases Nat.eq_zero_or_pos count with h0 | hpos
  · subst h0
    simp [generate_sharded_data] at h
  · exact hpos

theorem generate_length {count : Nat} {data : Content} {spliced : List Content}
    (h : generate_sharded_data count data = .ok spliced) : spliced.length = count := by
  have hc : count ≠ 0 := Nat.pos_iff_ne_zero.mp (generate_count_pos h)
  rw [generate_eq data hc] at h
  injection h with h
  subst h
  split
  · rw [appendToLast_length, List.length_map, List.length_range]
  · rw [List.length_map, List.length_range]

theorem generate_flatten {count : Nat} {data : Content} {spliced : List Content}
    (h : generate_sharded_data count data = .ok spliced) : spliced.flatten = data := by
  have hpos := generate_count_pos h
  have hc : count ≠ 0 := Nat.pos_iff_ne_zero.mp hpos
  have hmod := Nat.div_add_mod data.length count
  rw [Nat.mul_comm count (data.length / count)] at hmod
  rw [generate_eq data hc] at h
  injection h with h
  subst h
  by_cases hr : 0 < data.length % count
  · rw [if_pos hr]
    have hne : ((List.range count).map
        (fun z => (data.drop (data.length / count * z)).take (data.length / count))) ≠ [] := by
      intro hnil
      have hl : ((List.range count).map
          (fun z => (data.drop (data.length / count * z)).take (data.length / count))).length
          = count := by
        rw [List.length_map, List.length_range]
      rw [hnil] at hl
      simp at hl
      omega
    rw [appendToLast_flatten _ hne, chunks_flatten]
    have hsc : data.length / count * count = data.length - data.length % count := by omega
    rw [hsc, List.take_append_drop]
  · rw [if_neg hr]
    rw [chunks_flatten]
    have hsc : data.length / count * count = data.length := by omega
    rw [hsc, List.take_length]

theorem generate_nth_length {count : Nat} {data : Content} {spliced : List Content}
    (h : generate_sharded_data count data = .ok spliced) {i : Nat} (hi : i + 1 < count) :
    (nthContent spliced i).length = data.length / count := by
  have hc : count ≠ 0 := Nat.pos_iff_ne_zero.mp (generate_count_pos h)
  rw [generate_eq data hc] at h
  injection h with h
  subst h
  have hchunk : (((data.drop (data.length / count * i)).take (data.length / count))).length
      = data.length / count := by
    rw [List.length_take, List.length_drop]
    have h1 : data.length / count * (i + 1) ≤ data.length / count * count :=
      Nat.mul_le_mul_left _ (by omega)
    have h2 : data.length / count * count ≤ data.length :=
      Nat.div_mul_le_self data.length count
    rw [Nat.mul_succ] at h1
    omega
  have hmap : nthContent ((List.range count).map
      (fun z => (data.drop (data.length / count * z)).take (data.length / count))) i =
      (data.drop (data.length / count * i)).take (data.length / count) :=
    nthContent_map_range _ (by omega)
  split
  · rw [nthContent_appendToLast _ (by rw [List.length_map, List.length_range]; exact hi),
      hmap, hchunk]
  · rw [hmap, hchunk]

theorem generate_nth_last_length {count : Nat} {data : Content} {spliced : List Content}
    (h : generate_sharded_data count data = .ok spliced) :
    (nthContent spliced (count - 1)).length =
      data.length / count + data.length % count := by
  have hpos := generate_count_pos h
  have hc : count ≠ 0 := Nat.pos_iff_ne_zero.mp hpos
  rw [generate_eq data hc] at h
  injection h with h
  subst h
  have hchunk : (((data.drop (data.length / count * (count - 1))).take
      (data.length / count))).length = data.length / count := by
    rw [List.length_take, List.length_drop]
    have h1 : data.length / count * ((count - 1) + 1) ≤ data.length / count * count :=
      Nat.mul_le_mul_left _ (by omega)
    have h2 : data.length / count * count ≤ data.length :=
      Nat.div_mul_le_self data.length count
    rw [Nat.mul_succ] at h1
    omega
  have hmap : nthContent ((List.range count).map
      (fun z => (data.drop (data.length / count * z)).take (data.length / count)))
      (count - 1) =
      (data.drop (data.length / count * (count - 1))).take (data.length / count) :=
    nthContent_map_range _ (by omega)
  have hlenmap : ((List.range count).map
      (fun z => (data.drop (data.length / count * z)).take (data.length / count))).length
      = count := by
    rw [List.length_map, List.length_range]
  split
  · rename_i hr
    have hne : ((List.range count).map
        (fun z => (data.drop (data.length / count * z)).take (data.length / count))) ≠ [] := by
      intro hnil
      rw [hnil] at hlenmap
      simp at hlenmap
      omega
    rw [show count - 1 = ((List.range count).map
        (fun z => (data.drop (data.length / count * z)).take (data.length / count))).length - 1
      from by rw [hlenmap]]
    rw [nthContent_appendToLast_last _ hne, hlenmap, List.length_append, hmap, hchunk,
      List.length_drop]
    have hle : data.length % count ≤ data.length := Nat.mod_le _ _
    omega
  · rename_i hr
    rw [hmap, hchunk]
    omega

/-! ## Filter-counting lemmas (for the sync termination argument) -/

theorem length_filter_mono {α : Type} (l : List α) (p q : α → Bool)
    (h : ∀ a ∈ l, q a = true → p a = true) :
    (l.filter q).length ≤ (l.filter p).length := by
  induction l with
  | nil => simp
  | cons a l ih =>
    have ih' := ih fun b hb => h b (List.mem_cons_of_mem a hb)
    by_cases hq : q a = true
    · have hp := h a (List.mem_cons_self a l) hq
      simp only [List.filter_cons, hq, hp, if_true, List.length_cons]
      omega
    · have hq' : q a = false := by simpa using hq
      by_cases hp : p a = true
      · simp only [List.filter_cons, hq', hp, if_true, Bool.false_eq_true, if_false,
          List.length_cons]
        omega
      · have hp' : p a = false := by simpa using hp
        simp only [List.filter_cons, hq', hp', Bool.false_eq_true, if_false]
        exact ih'

theorem length_filter_strict {α : Type} (l : List α) (p q : α → Bool)
    (h : ∀ a ∈ l, q a = true → p a = true) (a : α) (ha : a ∈ l) (hp : p a = true)
    (hq : q a = false) : (l.filter q).length < (l.filter p).length := by
  induction l with
  | nil => simp at ha
  | cons b l ih =>
    rcases List.mem_cons.mp ha with hab | ha'
    · subst hab
      have hmono := length_filter_mono l p q fun c hc => h c (List.mem_cons_of_mem a hc)
      simp only [List.filter_cons, hq, hp, if_true, Bool.false_eq_true, if_false,
        List.length_cons]
      omega
    · have ih' := ih (fun c hc => h c (List.mem_cons_of_mem b hc)) ha'
      by_cases hqb : q b = true
      · have hpb := h b (List.mem_cons_self b l) hqb
        simp only [List.filter_cons, hqb, hpb, if_true, List.length_cons]
        omega
      · have hqb' : q b = false := by simpa using hqb
        by_cases hpb : p b = true
        · simp only [List.filter_cons, hqb', hpb, if_true, Bool.false_eq_true, if_false,
            List.length_cons]
          omega
        · have hpb' : p b = false := by simpa using hpb
          simp only [List.filter_cons, hqb', hpb', Bool.false_eq_true, if_false]
          exact ih'

theorem filter_congr_mem {α : Type} {l : List α} {p q : α → Bool}
    (h : ∀ a ∈ l, p a = q a) : l.filter p = l.filter q := by
  induction l with
  | nil => rfl
  | cons a l ih =>
    have ha := h a (List.mem_cons_self a l)
    have ih' := ih fun b hb => h b (List.mem_cons_of_mem a hb)
    simp only [List.filter_cons, ha, ih']

/-! ## Lemmas about the shard-writing loop -/

theorem map_congr_mem {α β : Type} {l : List α} {f g : α → β}
    (h : ∀ a ∈ l, f a = g a) : l.map f = l.map g := by
  induction l with
  | nil => rfl
  | cons a l ih =>
    rw [List.map_cons, List.map_cons, h a (List.mem_cons_self a l),
      ih fun b hb => h b (List.mem_cons_of_mem a hb)]

theorem write_shard_fs (h : Handler) (fs : FS) (n : Nat) (d : Content) :
    (write_shard h fs n d).2 = fsWrite fs (.primary n) d := rfl

theorem write_shard_mapping_eq (h : Handler) (fs : FS) (n : Nat) (d : Content) :
    ∃ r, (write_shard h fs n d).1.mapping = update_entry h.mapping n r := by
  simp only [write_shard]
  split <;> exact ⟨_, rfl⟩

theorem writeEnum_mapfile : ∀ (l : List Content) (h : Handler) (fs : FS) (n : Nat),
    (writeEnum h fs n l).2.mapfile = fs.mapfile
  | [], _, _, _ => rfl
  | d :: l, h, fs, n => by
    show (writeEnum (write_shard h fs n d).1 (write_shard h fs n d).2 (n + 1) l).2.mapfile
      = fs.mapfile
    rw [writeEnum_mapfile l]
    rfl

theorem writeEnum_read_low : ∀ (l : List Content) (h : Handler) (fs : FS) (n k : Nat),
    k < n → fsRead (writeEnum h fs n l).2 (.primary k) = fsRead fs (.primary k)
  | [], _, _, _, _, _ => rfl
  | d :: l, h, fs, n, k, hk => by
    show fsRead (writeEnum (write_shard h fs n d).1 (write_shard h fs n d).2 (n + 1) l).2
      (.primary k) = fsRead fs (.primary k)
    rw [writeEnum_read_low l _ _ _ _ (Nat.lt_succ_of_lt hk), write_shard_fs]
    exact fsRead_fsWrite_ne fs d (by simp only [ne_eq, FKey.primary.injEq]; omega)

theorem writeEnum_read_mem : ∀ (l : List Content) (h : Handler) (fs : FS) (n i : Nat),
    i < l.length →
    fsRead (writeEnum h fs n l).2 (.primary (n + i)) = some (nthContent l i)
  | [], _, _, _, i, hi => absurd hi (by simp)
  | d :: l, h, fs, n, 0, _ => by
    show fsRead (writeEnum (write_shard h fs n d).1 (write_shard h fs n d).2 (n + 1) l).2
      (.primary (n + 0)) = some d
    rw [writeEnum_read_low l _ _ _ _ (by omega), write_shard_fs, Nat.add_zero]
    exact fsRead_fsWrite_same fs (.primary n) d
  | d :: l, h, fs, n, i + 1, hi => by
    show fsRead (writeEnum (write_shard h fs n d).1 (write_shard h fs n d).2 (n + 1) l).2
      (.primary (n + (i + 1))) = some (nthContent l i)
    rw [show n + (i + 1) = (n + 1) + i from by omega]
    exact writeEnum_read_mem l _ _ (n + 1) i (by simpa using hi)

theorem writeEnum_ids : ∀ (l : List Content) (h : Handler) (fs : FS) (n : Nat),
    (∀ j, n ≤ j → j ∉ h.mapping.map Prod.fst) →
    (writeEnum h fs n l).1.mapping.map Prod.fst =
      h.mapping.map Prod.fst ++ (List.range l.length).map (· + n)
  | [], h, fs, n, _ => by
    show h.mapping.map Prod.fst =
      h.mapping.map Prod.fst ++ (List.range ([] : List Content).length).map (fun x => x + n)
    simp
  | d :: l, h, fs, n, hfresh => by
    show (writeEnum (write_shard h fs n d).1 (write_shard h fs n d).2 (n + 1) l).1.mapping.map
      Prod.fst = h.mapping.map Prod.fst ++ (List.range (d :: l).length).map (· + n)
    obtain ⟨r, hr⟩ := write_shard_mapping_eq h fs n d
    have hids : (write_shard h fs n d).1.mapping.map Prod.fst =
        h.mapping.map Prod.fst ++ [n] := by
      rw [hr]
      exact update_entry_ids_fresh r (hfresh n (Nat.le_refl n))
    rw [writeEnum_ids l _ _ (n + 1) (by
      intro j hj hmem
      rw [hids] at hmem
      rcases List.mem_append.mp hmem with hmem' | hmem'
      · exact hfresh j (by omega) hmem'
      · simp at hmem'
        omega), hids]
    rw [List.length_cons, List.range_succ_eq_map, List.map_cons, List.map_map,
      List.append_assoc]
    have hcomp : ((· + n) ∘ Nat.succ) = fun i => i + (n + 1) := by
      funext i
      simp only [Function.comp]
      omega
    rw [hcomp, Nat.zero_add]
    rfl

/-- Reads, mapping ids and mapfile after the build/rebuild write loop,
starting from an empty in-memory mapping. -/
theorem writeEnum_spec (h : Handler) (fs : FS) (count : Nat) (data : Content)
    (spliced : List Content) (hm : h.mapping = [])
    (hgen : generate_sharded_data count data = .ok spliced) :
    (writeEnum h fs 0 spliced).1.mapping.map Prod.fst = List.range count ∧
    (∀ i, i < count →
      fsRead (writeEnum h fs 0 spliced).2 (.primary i) = some (nthContent spliced i)) ∧
    (writeEnum h fs 0 spliced).2.mapfile = fs.mapfile := by
  have hlen := generate_length hgen
  refine ⟨?_, ?_, writeEnum_mapfile spliced h fs 0⟩
  · rw [writeEnum_ids spliced h fs 0 (by
      intro j _ hmem
      rw [hm] at hmem
      simp at hmem), hm, hlen]
    simp
  · intro i hi
    have := writeEnum_read_mem spliced h fs 0 i (by omega)
    rwa [Nat.zero_add] at this

/-- Concatenating the written primaries in ascending id order reproduces the
input corpus. -/
theorem writeEnum_flatten (h : Handler) (fs : FS) (count : Nat) (data : Content)
    (spliced : List Content) (hm : h.mapping = [])
    (hgen : generate_sharded_data count data = .ok spliced) :
    ((List.range count).map
      (fun i => (fsRead (writeEnum h fs 0 spliced).2 (.primary i)).getD [])).flatten
      = data := by
  obtain ⟨-, hreads, -⟩ := writeEnum_spec h fs count data spliced hm hgen
  have hmap : (List.range count).map
      (fun i => (fsRead (writeEnum h fs 0 spliced).2 (.primary i)).getD []) =
      (List.range count).map (nthContent spliced) := by
    refine map_congr_mem fun i hi => ?_
    rw [hreads i (List.mem_range.mp hi)]
    rfl
  rw [hmap, ← generate_length hgen, map_range_nthContent]
  exact generate_flatten hgen

/-- Vacuous-content shape of the split when the count exceeds the corpus
length: all pieces empty except the last, which holds the whole corpus. -/
theorem generate_pieces_of_big {count : Nat} {data : Content} {spliced : List Content}
    (h : generate_sharded_data count data = .ok spliced) (hbig : data.length < count) :
    (∀ i, i + 1 < count → nthContent spliced i = []) ∧
    nthContent spliced (count - 1) = data := by
  have hc : count ≠ 0 := by omega
  rw [generate_eq data hc] at h
  injection h with h
  subst h
  have hs : data.length / count = 0 := Nat.div_eq_of_lt hbig
  have hr : data.length % count = data.length := Nat.mod_eq_of_lt hbig
  simp only [hs, hr, Nat.zero_mul, List.drop_zero, List.take_zero, Nat.sub_self]
  by_cases hlen : 0 < data.length
  · rw [if_pos hlen]
    have hlenmap : ((List.range count).map (fun _ => ([] : Content))).length = count := by
      rw [List.length_map, List.length_range]
    have hne : ((List.range count).map (fun _ => ([] : Content))) ≠ [] := by
      intro hnil
      rw [hnil] at hlenmap
      simp at hlenmap
      omega
    constructor
    · intro i hi
      rw [nthContent_appendToLast _ (by rw [hlenmap]; exact hi),
        nthContent_map_range _ (by omega)]
    · rw [show count - 1 = ((List.range count).map (fun _ => ([] : Content))).length - 1
        from by rw [hlenmap]]
      rw [nthContent_appendToLast_last _ hne, hlenmap,
        nthContent_map_range _ (by omega)]
      rfl
  · rw [if_neg hlen]
    have hdata : data = [] := List.length_eq_zero.mp (by omega)
    subst hdata
    exact ⟨fun i hi => nthContent_map_range _ (by omega),
      nthContent_map_range _ (by omega)⟩

/-! ## The sync pass never deletes primaries nor rewrites the mapfile -/

theorem syncPost_refl (fs : FS) : SyncPost fs fs := ⟨rfl, fun _ hk => hk⟩

theorem syncPost_trans {fs1 fs2 fs3 : FS} (h12 : SyncPost fs1 fs2)
    (h23 : SyncPost fs2 fs3) : SyncPost fs1 fs3 :=
  ⟨h23.1.trans h12.1, fun k hk => h23.2 k (h12.2 k hk)⟩

theorem syncPost_fsWrite (fs : FS) (k : FKey) (c : Content) :
    SyncPost fs (fsWrite fs k c) :=
  ⟨rfl, fun j hj => fsExists_fsWrite_mono k c hj⟩

theorem missing_le_of_syncPost {fs fs' : FS} (h : SyncPost fs fs') :
    missingCount fs' ≤ missingCount fs := by
  unfold missingCount
  rw [load_map_congr h.1]
  refine length_filter_mono _ _ _ fun k _ hq => ?_
  cases hfk : fsExists fs (.primary k) with
  | true =>
    rw [h.2 k hfk] at hq
    simp at hq
  | false => rfl

theorem missing_write_primary_lt {fs : FS} {key : Nat} (a : Content)
    (hmem : key ∈ (load_map fs).map Prod.fst)
    (hmiss : fsExists fs (.primary key) = false) :
    missingCount (fsWrite fs (.primary key) a) < missingCount fs := by
  unfold missingCount
  rw [load_map_congr (show (fsWrite fs (.primary key) a).mapfile = fs.mapfile from rfl)]
  refine length_filter_strict _ _ _ (fun j _ hq => ?_) key hmem ?_ ?_
  · cases hfk : fsExists fs (.primary j) with
    | true =>
      rw [fsExists_fsWrite_mono _ _ hfk] at hq
      simp at hq
    | false => rfl
  · rw [hmiss]
    rfl
  · rw [show fsExists (fsWrite fs (.primary key) a) (.primary key) = true from by
      show (fsRead (fsWrite fs (.primary key) a) (.primary key)).isSome = true
      rw [fsRead_fsWrite_same]
      rfl]
    rfl

theorem primStep_mapfile (key rc : Nat) (a : Content) (fs : FS) :
    (if fsExists fs (.replica key rc) = true then
      (if a ≠ (fsRead fs (.replica key rc)).getD []
        then fsWrite fs (.replica key rc) a else fs) else fs).mapfile = fs.mapfile := by
  split_ifs <;> rfl

theorem primStep_read (key rc : Nat) (a : Content) (fs : FS) (j : Nat) :
    fsRead (if fsExists fs (.replica key rc) = true then
      (if a ≠ (fsRead fs (.replica key rc)).getD []
        then fsWrite fs (.replica key rc) a else fs) else fs) (.primary j) =
    fsRead fs (.primary j) := by
  split_ifs with h1 h2
  · exact fsRead_fsWrite_ne fs a fun he => FKey.noConfusion he
  · rfl
  · rfl

theorem syncPrimLoop_spec : ∀ (n key : Nat) (a : Content) (h : Handler) (fs : FS),
    (syncPrimLoop key a n h fs).2.mapfile = fs.mapfile ∧
    (∀ j, fsRead (syncPrimLoop key a n h fs).2 (.primary j) = fsRead fs (.primary j)) ∧
    (syncPrimLoop key a n h fs).1.mapping = h.mapping
  | 0, _, _, _, _ => ⟨rfl, fun _ => rfl, rfl⟩
  | n + 1, key, a, h, fs => by
    obtain ⟨hm, hr, hmap⟩ := syncPrimLoop_spec n key a { h with rep_count := h.rep_count + 1 }
      (if fsExists fs (.replica key h.rep_count) = true then
        (if a ≠ (fsRead fs (.replica key h.rep_count)).getD []
          then fsWrite fs (.replica key h.rep_count) a else fs) else fs)
    refine ⟨?_, ?_, ?_⟩
    · show (syncPrimLoop key a n { h with rep_count := h.rep_count + 1 }
        (if fsExists fs (.replica key h.rep_count) = true then
          (if a ≠ (fsRead fs (.replica key h.rep_count)).getD []
            then fsWrite fs (.replica key h.rep_count) a else fs) else fs)).2.mapfile
        = fs.mapfile
      rw [hm, primStep_mapfile]
    · intro j
      show fsRead (syncPrimLoop key a n { h with rep_count := h.rep_count + 1 }
        (if fsExists fs (.replica key h.rep_count) = true then
          (if a ≠ (fsRead fs (.replica key h.rep_count)).getD []
            then fsWrite fs (.replica key h.rep_count) a else fs) else fs)).2 (.primary j)
        = fsRead fs (.primary j)
      rw [hr j, primStep_read]
    · show (syncPrimLoop key a n { h with rep_count := h.rep_count + 1 }
        (if fsExists fs (.replica key h.rep_count) = true then
          (if a ≠ (fsRead fs (.replica key h.rep_count)).getD []
            then fsWrite fs (.replica key h.rep_count) a else fs) else fs)).1.mapping
        = h.mapping
      rw [hmap]

theorem syncPost_syncPrimLoop (n key : Nat) (a : Content) (h : Handler) (fs : FS) :
    SyncPost fs (syncPrimLoop key a n h fs).2 := by
  obtain ⟨hm, hr, -⟩ := syncPrimLoop_spec n key a h fs
  refine ⟨hm, fun k hk => ?_⟩
  show (fsRead (syncPrimLoop key a n h fs).2 (.primary k)).isSome = true
  rw [hr k]
  exact hk

theorem missing_syncPrimLoop (n key : Nat) (a : Content) (h : Handler) (fs : FS) :
    missingCount (syncPrimLoop key a n h fs).2 = missingCount fs := by
  obtain ⟨hm, hr, -⟩ := syncPrimLoop_spec n key a h fs
  unfold missingCount
  rw [load_map_congr hm]
  refine congrArg List.length (filter_congr_mem fun k _ => ?_)
  show (!(fsRead (syncPrimLoop key a n h fs).2 (.primary k)).isSome)
      = (!(fsRead fs (.primary k)).isSome)
  rw [hr k]

theorem syncMissLoop_post (recurse : Handler → FS → Except Unit (Handler × FS))
    (hrec : ∀ h fs h' fs', recurse h fs = .ok (h', fs') → SyncPost fs fs') :
    ∀ (n key : Nat) (h : Handler) (fs : FS) (h' : Handler) (fs' : FS),
      syncMissLoop recurse key n h fs = .ok (h', fs') → SyncPost fs fs'
  | 0, key, h, fs, h', fs', heq => by
    cases heq
    exact syncPost_refl fs
  | n + 1, key, h, fs, h', fs', heq => by
    unfold syncMissLoop at heq
    split at heq
    · split at heq
      · split at heq
        · exact Except.noConfusion heq
        · rename_i p hp
          refine syncPost_trans (syncPost_trans (syncPost_fsWrite fs (.primary key)
            ((fsRead fs (.replica key h.rep_count)).getD [])) (hrec h _ p.1 p.2 hp))
            (syncMissLoop_post recurse hrec n key _ p.2 h' fs' heq)
      · exact syncMissLoop_post recurse hrec n key _ fs h' fs' heq
    · exact syncMissLoop_post recurse hrec n key _ fs h' fs' heq

theorem syncKeys_post (recurse : Handler → FS → Except Unit (Handler × FS))
    (hrec : ∀ h fs h' fs', recurse h fs = .ok (h', fs') → SyncPost fs fs') (mf : Nat) :
    ∀ (keys : List Nat) (h : Handler) (fs : FS) (h' : Handler) (fs' : FS),
      syncKeys recurse mf keys h fs = .ok (h', fs') → SyncPost fs fs'
  | [], h, fs, h', fs', heq => by
    cases heq
    exact syncPost_refl fs
  | key :: rest, h, fs, h', fs', heq => by
    unfold syncKeys at heq
    split at heq
    · exact syncPost_trans
        (syncPost_syncPrimLoop (mf + 1) key ((fsRead fs (.primary key)).getD [])
          { h with rep_count := 1 } fs)
        (syncKeys_post recurse hrec mf rest _ _ h' fs' heq)
    · split at heq
      · exact Except.noConfusion heq
      · rename_i p hp
        exact syncPost_trans
          (syncMissLoop_post recurse hrec (mf + 1) key { h with rep_count := 1 } fs p.1 p.2 hp)
          (syncKeys_post recurse hrec mf rest p.1 p.2 h' fs' heq)

theorem sync_fuel_post : ∀ (fuel : Nat) (h : Handler) (fs : FS) (h' : Handler) (fs' : FS),
    sync_fuel fuel h fs = .ok (h', fs') → SyncPost fs fs'
  | 0, _, _, _, _, heq => Except.noConfusion heq
  | fuel + 1, h, fs, h', fs', heq => by
    unfold sync_fuel at heq
    exact syncKeys_post (sync_fuel fuel) (sync_fuel_post fuel) (max_files fs)
      (sortNats ((load_map fs).map Prod.fst)) { h with mapping := load_map fs } fs h' fs' heq

/-! ## Sufficient fuel: one unit per missing primary -/

theorem syncMissLoop_ok (recurse : Handler → FS → Except Unit (Handler × FS)) (F : Nat)
    (hrec_ok : ∀ h fs, missingCount fs < F → ∃ p, recurse h fs = .ok p)
    (hrec_post : ∀ h fs h' fs', recurse h fs = .ok (h', fs') → SyncPost fs fs') :
    ∀ (n key : Nat) (h : Handler) (fs : FS),
      key ∈ (load_map fs).map Prod.fst →
      missingCount fs ≤ F →
      (fsExists fs (.primary key) = true → missingCount fs + 1 ≤ F) →
      ∃ p, syncMissLoop recurse key n h fs = .ok p ∧ SyncPost fs p.2
  | 0, key, h, fs, _, _, _ => ⟨(h, fs), rfl, syncPost_refl fs⟩
  | n + 1, key, h, fs, hmem, hmis, hJ => by
    unfold syncMissLoop
    by_cases hex : fsExists fs (.replica key h.rep_count) = true
    · rw [if_pos hex]
      by_cases hlen : ((((lookupRange h.mapping key).getD ⟨0, 0⟩).stop : Int) -
          (((lookupRange h.mapping key).getD ⟨0, 0⟩).start : Int) =
          (((fsRead fs (.replica key h.rep_count)).getD []).length : Int))
      · rw [if_pos hlen]
        have hw : SyncPost fs (fsWrite fs (.primary key)
            ((fsRead fs (.replica key h.rep_count)).getD [])) :=
          syncPost_fsWrite fs (.primary key) ((fsRead fs (.replica key h.rep_count)).getD [])
        have hm1 : missingCount (fsWrite fs (.primary key)
            ((fsRead fs (.replica key h.rep_count)).getD [])) < F := by
          by_cases hpk : fsExists fs (.primary key) = true
          · have h1 := missing_le_of_syncPost hw
            have h2 := hJ hpk
            omega
          · have hpk' : fsExists fs (.primary key) = false := by simpa using hpk
            have h1 := missing_write_primary_lt
              ((fsRead fs (.replica key h.rep_count)).getD []) hmem hpk'
            omega
        obtain ⟨p, hp⟩ := hrec_ok h
          (fsWrite fs (.primary key) ((fsRead fs (.replica key h.rep_count)).getD [])) hm1
        have hpost1 : SyncPost (fsWrite fs (.primary key)
            ((fsRead fs (.replica key h.rep_count)).getD [])) p.2 :=
          hrec_post h _ p.1 p.2 hp
        rw [hp]
        have hmemp : key ∈ (load_map p.2).map Prod.fst := by
          rw [load_map_congr hpost1.1]
          exact hmem
        have hexp : fsExists p.2 (.primary key) = true := by
          refine hpost1.2 key ?_
          show (fsRead (fsWrite fs (.primary key)
            ((fsRead fs (.replica key h.rep_count)).getD [])) (.primary key)).isSome = true
          rw [fsRead_fsWrite_same]
          rfl
        have hmisp : missingCount p.2 ≤ F :=
          le_trans (missing_le_of_syncPost hpost1) (Nat.le_of_lt hm1)
        have hJp : fsExists p.2 (.primary key) = true → missingCount p.2 + 1 ≤ F := by
          intro _
          have := missing_le_of_syncPost hpost1
          omega
        obtain ⟨q, hq, hpost2⟩ := syncMissLoop_ok recurse F hrec_ok hrec_post n key
          { p.1 with rep_count := p.1.rep_count + 1 } p.2 hmemp hmisp hJp
        exact ⟨q, hq, syncPost_trans (syncPost_trans hw hpost1) hpost2⟩
      · rw [if_neg hlen]
        exact syncMissLoop_ok recurse F hrec_ok hrec_post n key
          { h with rep_count := h.rep_count + 1 } fs hmem hmis hJ
    · rw [if_neg hex]
      exact syncMissLoop_ok recurse F hrec_ok hrec_post n key
        { h with rep_count := h.rep_count + 1 } fs hmem hmis hJ

theorem syncKeys_ok (recurse : Handler → FS → Except Unit (Handler × FS)) (F mf : Nat)
    (hrec_ok : ∀ h fs, missingCount fs < F → ∃ p, recurse h fs = .ok p)
    (hrec_post : ∀ h fs h' fs', recurse h fs = .ok (h', fs') → SyncPost fs fs') :
    ∀ (keys : List Nat) (h : Handler) (fs : FS),
      (∀ k ∈ keys, k ∈ (load_map fs).map Prod.fst) →
      missingCount fs ≤ F →
      ∃ p, syncKeys recurse mf keys h fs = .ok p ∧ SyncPost fs p.2
  | [], h, fs, _, _ => ⟨(h, fs), rfl, syncPost_refl fs⟩
  | key :: rest, h, fs, hmem, hmis => by
    unfold syncKeys
    by_cases hex : fsExists fs (.primary key) = true
    · rw [if_pos hex]
      have hpost1 := syncPost_syncPrimLoop (mf + 1) key ((fsRead fs (.primary key)).getD [])
        { h with rep_count := 1 } fs
      have hmem' : ∀ k ∈ rest, k ∈ (load_map (syncPrimLoop key
          ((fsRead fs (.primary key)).getD []) (mf + 1)
          { h with rep_count := 1 } fs).2).map Prod.fst := by
        intro k hk
        rw [load_map_congr hpost1.1]
        exact hmem k (List.mem_cons_of_mem key hk)
      have hmis' : missingCount (syncPrimLoop key ((fsRead fs (.primary key)).getD [])
          (mf + 1) { h with rep_count := 1 } fs).2 ≤ F := by
        rw [missing_syncPrimLoop]
        exact hmis
      obtain ⟨p, hp, hpost2⟩ := syncKeys_ok recurse F mf hrec_ok hrec_post rest _ _ hmem' hmis'
      exact ⟨p, hp, syncPost_trans hpost1 hpost2⟩
    · rw [if_neg hex]
      have hex' : fsExists fs (.primary key) = false := by simpa using hex
      obtain ⟨p, hp, hpost1⟩ := syncMissLoop_ok recurse F hrec_ok hrec_post (mf + 1) key
        { h with rep_count := 1 } fs (hmem key (List.mem_cons_self key rest)) hmis
        (fun hc => by rw [hex'] at hc; exact Bool.noConfusion hc)
      rw [hp]
      have hmem' : ∀ k ∈ rest, k ∈ (load_map p.2).map Prod.fst := by
        intro k hk
        rw [load_map_congr hpost1.1]
        exact hmem k (List.mem_cons_of_mem key hk)
      have hmis' : missingCount p.2 ≤ F :=
        le_trans (missing_le_of_syncPost hpost1) hmis
      obtain ⟨q, hq, hpost2⟩ := syncKeys_ok recurse F mf hrec_ok hrec_post rest p.1 p.2
        hmem' hmis'
      exact ⟨q, hq, syncPost_trans hpost1 hpost2⟩

theorem sync_fuel_ok : ∀ (fuel : Nat) (h : Handler) (fs : FS),
    missingCount fs < fuel → ∃ p, sync_fuel fuel h fs = .ok p ∧ SyncPost fs p.2
  | 0, _, _, hlt => absurd hlt (by omega)
  | fuel + 1, h, fs, hlt => by
    unfold sync_fuel
    exact syncKeys_ok (sync_fuel fuel) fuel (max_files fs)
      (fun h'' fs'' hm => (sync_fuel_ok fuel h'' fs'' hm).imp fun p hp => hp.1)
      (sync_fuel_post fuel)
      (sortNats ((load_map fs).map Prod.fst)) { h with mapping := load_map fs } fs
      (fun k hk => mem_sortNats.mp hk) (by omega)

/-! ## A sync pass over all-present primaries only touches replicas -/

theorem syncKeys_allPresent (recurse : Handler → FS → Except Unit (Handler × FS)) (mf : Nat) :
    ∀ (keys : List Nat) (h : Handler) (fs : FS),
      (∀ k ∈ keys, fsExists fs (.primary k) = true) →
      ∃ p, syncKeys recurse mf keys h fs = .ok p ∧
        p.2.mapfile = fs.mapfile ∧
        (∀ j, fsRead p.2 (.primary j) = fsRead fs (.primary j)) ∧
        p.1.mapping = h.mapping
  | [], h, fs, _ => ⟨(h, fs), rfl, rfl, fun _ => rfl, rfl⟩
  | key :: rest, h, fs, hall => by
    unfold syncKeys
    rw [if_pos (hall key (List.mem_cons_self key rest))]
    obtain ⟨hm, hr, hmap⟩ := syncPrimLoop_spec (mf + 1) key
      ((fsRead fs (.primary key)).getD []) { h with rep_count := 1 } fs
    have hall' : ∀ k ∈ rest, fsExists (syncPrimLoop key ((fsRead fs (.primary key)).getD [])
        (mf + 1) { h with rep_count := 1 } fs).2 (.primary k) = true := by
      intro k hk
      show (fsRead (syncPrimLoop key ((fsRead fs (.primary key)).getD []) (mf + 1)
        { h with rep_count := 1 } fs).2 (.primary k)).isSome = true
      rw [hr k]
      exact hall k (List.mem_cons_of_mem key hk)
    obtain ⟨p, hp, hm2, hr2, hmap2⟩ := syncKeys_allPresent recurse mf rest _ _ hall'
    refine ⟨p, hp, ?_, ?_, ?_⟩
    · rw [hm2, hm]
    · intro j
      rw [hr2 j, hr j]
    · rw [hmap2, hmap]

theorem sync_replication_allPresent (h : Handler) (fs : FS)
    (hall : ∀ k ∈ (load_map fs).map Prod.fst, fsExists fs (.primary k) = true) :
    ∃ p, sync_replication h fs = .ok p ∧
      p.2.mapfile = fs.mapfile ∧
      (∀ j, fsRead p.2 (.primary j) = fsRead fs (.primary j)) ∧
      p.1.mapping = load_map fs := by
  unfold sync_replication sync_fuel
  exact syncKeys_allPresent (sync_fuel (missingCount fs)) (max_files fs)
    (sortNats ((load_map fs).map Prod.fst)) { h with mapping := load_map fs } fs
    (fun k hk => hall k (mem_sortNats.mp hk))

/-! ## Reconstruction and deletion loops -/

theorem readConcat_ok : ∀ (ks : List Nat) (fs : FS),
    (∀ k ∈ ks, fsExists fs (.primary k) = true) →
    readConcat fs ks = .ok ((ks.map (fun k => (fsRead fs (.primary k)).getD [])).flatten)
  | [], _, _ => rfl
  | k :: ks, fs, hall => by
    have hex : (fsRead fs (.primary k)).isSome = true := hall k (List.mem_cons_self k ks)
    obtain ⟨c, hc⟩ := Option.isSome_iff_exists.mp hex
    unfold readConcat
    rw [hc, readConcat_ok ks fs fun j hj => hall j (List.mem_cons_of_mem k hj)]
    show Except.ok (c ++ (ks.map fun j => (fsRead fs (.primary j)).getD []).flatten) = _
    rw [List.map_cons, List.flatten_cons, hc]
    rfl

theorem removeLoop_ok : ∀ (ks : List Nat) (fs : FS),
    (∀ k ∈ ks, fsExists fs (.primary k) = true) → ks.Nodup →
    ∃ fs1, removeLoop fs ks = .ok fs1 ∧ fs1.mapfile = fs.mapfile
  | [], fs, _, _ => ⟨fs, rfl, rfl⟩
  | k :: ks, fs, hall, hnd => by
    unfold removeLoop
    rw [if_pos (hall k (List.mem_cons_self k ks))]
    have hnd' := List.nodup_cons.mp hnd
    have hall' : ∀ j ∈ ks, fsExists (fsRemove fs (.primary k)) (.primary j) = true := by
      intro j hj
      have hjk : j ≠ k := fun he => hnd'.1 (he ▸ hj)
      show (fsRead (fsRemove fs (.primary k)) (.primary j)).isSome = true
      rw [fsRead_fsRemove_ne fs (by simp only [ne_eq, FKey.primary.injEq]; exact hjk)]
      exact hall j (List.mem_cons_of_mem k hj)
    obtain ⟨fs1, h1, h2⟩ := removeLoop_ok ks (fsRemove fs (.primary k)) hall' hnd'.2
    exact ⟨fs1, h1, h2.trans rfl⟩

/-- Rebuild-and-sync tail of `remove_shard`: starting from an empty
in-memory mapping, the rewritten shards survive the final sync pass
untouched. -/
theorem remove_finish_ok (h2 : Handler) (fs2 : FS) (count : Nat) (dat : Content)
    (spliced : List Content) (hm : h2.mapping = [])
    (hgen : generate_sharded_data count dat = .ok spliced) :
    ∃ h' fs', remove_finish h2 fs2 spliced = .ok h' fs' ∧
      h'.mapping.map Prod.fst = List.range count ∧
      fs'.mapfile = some h'.mapping ∧
      ((List.range count).map (fun i => (fsRead fs' (.primary i)).getD [])).flatten = dat := by
  obtain ⟨hids', hreads', -⟩ := writeEnum_spec h2 fs2 count dat spliced hm hgen
  have hflat' := writeEnum_flatten h2 fs2 count dat spliced hm hgen
  have hall : ∀ k ∈ (load_map (write_map (writeEnum h2 fs2 0 spliced).1
      (writeEnum h2 fs2 0 spliced).2)).map Prod.fst,
      fsExists (write_map (writeEnum h2 fs2 0 spliced).1
        (writeEnum h2 fs2 0 spliced).2) (.primary k) = true := by
    intro k hk
    have hk' : k ∈ (writeEnum h2 fs2 0 spliced).1.mapping.map Prod.fst := hk
    rw [hids'] at hk'
    show (fsRead (writeEnum h2 fs2 0 spliced).2 (.primary k)).isSome = true
    rw [hreads' k (List.mem_range.mp hk')]
    rfl
  obtain ⟨q, hsync, hmf, hrd, hmapv⟩ := sync_replication_allPresent
    (writeEnum h2 fs2 0 spliced).1
    (write_map (writeEnum h2 fs2 0 spliced).1 (writeEnum h2 fs2 0 spliced).2) hall
  refine ⟨q.1, q.2, ?_, ?_, ?_, ?_⟩
  · unfold remove_finish
    rw [hsync]
  · rw [hmapv]
    exact hids'
  · rw [hmf, hmapv]
    rfl
  · have hcongr : ∀ i ∈ List.range count, (fsRead q.2 (.primary i)).getD [] =
        (fsRead (writeEnum h2 fs2 0 spliced).2 (.primary i)).getD [] := by
      intro i _
      rw [hrd i]
      rfl
    rw [map_congr_mem hcongr]
    exact hflat'

/-! ## Claim theorems (concrete evaluations) -/

/-- C1: the claim asserts the persisted ranges of
`buildShards(5, "ABCDEFGHIJ")` partition the corpus as
`[0,2), [2,4), [4,6), [6,8), [8,10)`, each range's length matching its
shard's content.  Evaluating the code instead yields ranges
`(0,2), (3,4), (5,6), (7,8), (9,10)`: shard 1's start is 3, not shard 0's
end 2 (a one-byte gap), and its range length is 1 while its stored content
"CD" has length 2 — the `last_char_position + 1` start computation in
`_write_shard` contradicts the partition invariant. -/
theorem c1_range_gap_eval :
    buildMapping (build_shards H0 FS0 5 corpus10) =
      [(0, ⟨0, 2⟩), (1, ⟨3, 4⟩), (2, ⟨5, 6⟩), (3, ⟨7, 8⟩), (4, ⟨9, 10⟩)] ∧
    fsRead fsBuilt5 (.primary 0) = some ['A', 'B'] ∧
    fsRead fsBuilt5 (.primary 1) = some ['C', 'D'] ∧
    ((lookupRange (buildMapping (build_shards H0 FS0 5 corpus10)) 1).getD ⟨0, 0⟩).start ≠
      ((lookupRange (buildMapping (build_shards H0 FS0 5 corpus10)) 0).getD ⟨0, 0⟩).stop := by
  refine ⟨by decide, by decide, by decide, by decide⟩

/-- C3: the claim asserts that a missing primary with exactly one
byte-length-matching replica is restored by `syncReplication`.  In the C3
state the sole replica of shard 0 sits at level 2, its length 2 equals the
mapping's `end - start = 2 - 0`, yet the sync pass terminates with the
primary still missing: the probe bound `max_files` counts the `data/` names
that exist as files in the working directory, which is 0, so only replica
level 1 is ever probed and the level-2 replica is never considered. -/
theorem c3_missing_primary_not_restored :
    fsRead fsC3 (.primary 0) = none ∧
    fsRead fsC3 (.replica 0 2) = some ['A', 'B'] ∧
    fsRead fsC3 (.replica 0 1) = none ∧
    (((lookupRange (load_map fsC3) 0).getD ⟨0, 0⟩).stop : Int) -
        (((lookupRange (load_map fsC3) 0).getD ⟨0, 0⟩).start : Int) = (2 : Int) ∧
    max_files fsC3 = 0 ∧
    (sync_replication hC3 fsC3).toOption.map (fun p => fsRead p.2 (.primary 0)) =
      some none := by
  refine ⟨by decide, by decide, by decide, by decide, by decide, by decide⟩

/-- C4: the claim asserts that after `addReplication()` then
`syncReplication()` every physically existing replica equals its primary and
that the probe bound never skips an existing level.  In the C4 state
`addReplication` correctly writes level 3, but the sync pass probes only
level 1 (its bound `max_files` is 0, since `os.path.isfile` is applied to
bare `data/` names resolved against the working directory), so the drifted
level-2 replica still holds "XX" while the primary holds "AB". -/
theorem c4_replica_level_skipped :
    opIsOk (add_replication hC4 fsC4) = true ∧
    fsRead (opFS (add_replication hC4 fsC4)) (.replica 0 3) = some ['A', 'B'] ∧
    max_files (opFS (add_replication hC4 fsC4)) = 0 ∧
    (sync_replication (opHandler (add_replication hC4 fsC4))
        (opFS (add_replication hC4 fsC4))).toOption.map
        (fun p => (fsRead p.2 (.primary 0), fsRead p.2 (.replica 0 2))) =
      some (some ['A', 'B'], some ['X', 'X']) := by
  refine ⟨by decide, by decide, by decide, by decide⟩

/-- C6: the claim asserts every `addReplication()` call that writes the new
level ends by invoking `syncReplication()`.  In the C6 state the call writes
the new level-2 replica but returns with the drifted level-1 replica still
holding "XY"; actually running `sync_replication` on the returned state
rewrites it to "AB".  So the sync pass observably did not run: line 182 of
the source reads `self.sync_replication` without parentheses, evaluating and
discarding the bound method. -/
theorem c6_add_replication_no_sync :
    opIsOk (add_replication hC6 fsC6) = true ∧
    fsRead (opFS (add_replication hC6 fsC6)) (.replica 0 2) = some ['A', 'B'] ∧
    fsRead (opFS (add_replication hC6 fsC6)) (.replica 0 1) = some ['X', 'Y'] ∧
    (sync_replication (opHandler (add_replication hC6 fsC6))
        (opFS (add_replication hC6 fsC6))).toOption.map
        (fun p => fsRead p.2 (.replica 0 1)) =
      some (some ['A', 'B']) := by
  refine ⟨by decide, by decide, by decide, by decide⟩

/-- C5 counterexample: the claim asserts `buildShards(count, corpus)` fails
with `InvalidShardCount` whenever `count` exceeds the corpus length, with no
write occurring.  With `count = 20` on the 10-byte corpus the call instead
succeeds, writing 20 shards (the first 19 empty, the last holding the whole
corpus) and persisting a 20-entry mapping. -/
theorem c5_overlarge_count_accepted :
    buildIsOk (build_shards H0 FS0 20 corpus10) = true ∧
    (buildMapping (build_shards H0 FS0 20 corpus10)).length = 20 ∧
    fsRead (buildFS (build_shards H0 FS0 20 corpus10)) (.primary 0) = some [] ∧
    fsRead (buildFS (build_shards H0 FS0 20 corpus10)) (.primary 19) = some corpus10 ∧
    (buildFS (build_shards H0 FS0 20 corpus10)).mapfile.isSome = true := by
  refine ⟨by decide, by decide, by decide, by decide, by decide⟩

/-- C7: `build_shards` on a non-empty in-memory mapping returns the
"Cannot build shard setup -- sharding already exists." message before
splitting or writing anything: the returned state is exactly the input
state, so no shard content is written and the persisted mapping is
unchanged. -/
theorem c7_already_sharded (h : Handler) (fs : FS) (count : Nat) (data : Content)
    (hne : h.mapping ≠ []) :
    build_shards h fs count data = .alreadySharded h fs := by
  unfold build_shards
  simp [hne]

/-- C7 witness: a concrete non-empty mapping is rejected with the state
untouched. -/
theorem c7_already_sharded_witness :
    hC4.mapping ≠ [] ∧
    build_shards hC4 fsC4 7 corpus10 = .alreadySharded hC4 fsC4 :=
  ⟨by decide, c7_already_sharded hC4 fsC4 7 corpus10 (by decide)⟩

/-- C9: `get_shard_data` tests its argument with `if not shardnum`, and the
Python int `0` is falsy exactly like `None`, so `get_shard_data(0)` returns
the full mapping from `get_all_shard_data()` instead of shard 0's info. -/
theorem c9_get_shard_data_zero (h : Handler) :
    get_shard_data h (.int 0) = .allData (get_all_shard_data h) ∧
    get_shard_data h (.int 0) = get_shard_data h .none := by
  constructor <;> rfl

/-- C2: from an empty mapping, `buildShards(N, corpus)` with positive `N` not
exceeding the corpus length writes exactly the `N` shards `0..N-1` (the
final mapping's keys are `0..N-1` in ascending order and are persisted),
concatenating the stored shard contents in ascending id order reproduces the
corpus byte-for-byte, shards `0..N-2` each hold `floor(len(corpus)/N)` bytes,
and the final shard holds the base size plus the remainder. -/
theorem c2_build_reconstruct (h : Handler) (fs : FS) (N : Nat) (data : Content)
    (hm : h.mapping = []) (hN : 0 < N) (hlen : N ≤ data.length) :
    ∃ h' fs', build_shards h fs N data = .ok h' fs' ∧
      h'.mapping.map Prod.fst = List.range N ∧
      fs'.mapfile = some h'.mapping ∧
      ((List.range N).map (fun i => (fsRead fs' (.primary i)).getD [])).flatten = data ∧
      (∀ i, i + 1 < N → ((fsRead fs' (.primary i)).getD []).length = data.length / N) ∧
      ((fsRead fs' (.primary (N - 1))).getD []).length =
        data.length / N + data.length % N := by
  have hc : N ≠ 0 := by omega
  obtain ⟨spliced, hgen⟩ : ∃ s, generate_sharded_data N data = .ok s := by
    rw [generate_eq data hc]
    exact ⟨_, rfl⟩
  have hbuild : build_shards h fs N data =
      .ok (writeEnum h fs 0 spliced).1
        (write_map (writeEnum h fs 0 spliced).1 (writeEnum h fs 0 spliced).2) := by
    unfold build_shards
    rw [if_neg (by simp [hm]), hgen]
  obtain ⟨hids, hreads, -⟩ := writeEnum_spec h fs N data spliced hm hgen
  have hflat := writeEnum_flatten h fs N data spliced hm hgen
  refine ⟨_, _, hbuild, hids, rfl, hflat, ?_, ?_⟩
  · intro i hi
    have hri : fsRead (write_map (writeEnum h fs 0 spliced).1 (writeEnum h fs 0 spliced).2)
        (.primary i) = fsRead (writeEnum h fs 0 spliced).2 (.primary i) := rfl
    rw [hri, hreads i (by omega)]
    exact generate_nth_length hgen hi
  · have hrl : fsRead (write_map (writeEnum h fs 0 spliced).1 (writeEnum h fs 0 spliced).2)
        (.primary (N - 1)) = fsRead (writeEnum h fs 0 spliced).2 (.primary (N - 1)) := rfl
    rw [hrl, hreads (N - 1) (by omega)]
    exact generate_nth_last_length hgen

/-- C2 witness: the spec's 11-byte corpus split five ways (2,2,2,2,3). -/
theorem c2_build_reconstruct_witness :
    H0.mapping = [] ∧ 0 < 5 ∧ 5 ≤ corpus11.length ∧
    (∃ h' fs', build_shards H0 FS0 5 corpus11 = .ok h' fs' ∧
      h'.mapping.map Prod.fst = List.range 5 ∧
      fs'.mapfile = some h'.mapping ∧
      ((List.range 5).map (fun i => (fsRead fs' (.primary i)).getD [])).flatten = corpus11 ∧
      (∀ i, i + 1 < 5 → ((fsRead fs' (.primary i)).getD []).length = corpus11.length / 5) ∧
      ((fsRead fs' (.primary (5 - 1))).getD []).length =
        corpus11.length / 5 + corpus11.length % 5) :=
  ⟨rfl, by decide, by decide,
    c2_build_reconstruct H0 FS0 5 corpus11 rfl (by decide) (by decide)⟩

/-- C5 amended: `build_shards` performs no count validation at all.  A zero
count fails with an uncaught `ZeroDivisionError` out of `divmod` before any
write (the returned state is the input state), and a count exceeding the
corpus length is accepted: the call succeeds, writing `count` shards of which
the first `count - 1` are empty and the last holds the entire corpus. -/
theorem c5_no_count_validation (h : Handler) (fs : FS) (count : Nat) (data : Content)
    (hm : h.mapping = []) (hbig : data.length < count) :
    build_shards h fs 0 data = .zeroDivisionError h fs ∧
    ∃ h' fs', build_shards h fs count data = .ok h' fs' ∧
      h'.mapping.map Prod.fst = List.range count ∧
      (∀ i, i + 1 < count → fsRead fs' (.primary i) = some []) ∧
      fsRead fs' (.primary (count - 1)) = some data := by
  constructor
  · unfold build_shards
    rw [if_neg (by simp [hm])]
    rfl
  · have hc : count ≠ 0 := by omega
    obtain ⟨spliced, hgen⟩ : ∃ s, generate_sharded_data count data = .ok s := by
      rw [generate_eq data hc]
      exact ⟨_, rfl⟩
    have hbuild : build_shards h fs count data =
        .ok (writeEnum h fs 0 spliced).1
          (write_map (writeEnum h fs 0 spliced).1 (writeEnum h fs 0 spliced).2) := by
      unfold build_shards
      rw [if_neg (by simp [hm]), hgen]
    obtain ⟨hids, hreads, -⟩ := writeEnum_spec h fs count data spliced hm hgen
    obtain ⟨hsmall, hlast⟩ := generate_pieces_of_big hgen hbig
    refine ⟨_, _, hbuild, hids, ?_, ?_⟩
    · intro i hi
      have hri : fsRead (write_map (writeEnum h fs 0 spliced).1 (writeEnum h fs 0 spliced).2)
          (.primary i) = fsRead (writeEnum h fs 0 spliced).2 (.primary i) := rfl
      rw [hri, hreads i (by omega), hsmall i hi]
    · have hrl : fsRead (write_map (writeEnum h fs 0 spliced).1 (writeEnum h fs 0 spliced).2)
          (.primary (count - 1)) = fsRead (writeEnum h fs 0 spliced).2 (.primary (count - 1)) :=
        rfl
      rw [hrl, hreads (count - 1) (by omega), hlast]

/-- C5 amended witness: count 12 on the 10-byte corpus. -/
theorem c5_no_count_validation_witness :
    H0.mapping = [] ∧ corpus10.length < 12 ∧
    (build_shards H0 FS0 0 corpus10 = .zeroDivisionError H0 FS0 ∧
     ∃ h' fs', build_shards H0 FS0 12 corpus10 = .ok h' fs' ∧
       h'.mapping.map Prod.fst = List.range 12 ∧
       (∀ i, i + 1 < 12 → fsRead fs' (.primary i) = some []) ∧
       fsRead fs' (.primary (12 - 1)) = some corpus10) :=
  ⟨rfl, by decide, c5_no_count_validation H0 FS0 12 corpus10 rfl (by decide)⟩

/-- C10: `sync_replication` always terminates.  The self-recursion at source
line 267 runs only immediately after a missing primary has been rewritten,
so every nested pass strictly decreases the number of mapping keys whose
primary file is missing; a fuel of one pass per missing primary plus the
outer pass (`missingCount fs + 1`, the fuel `sync_replication` is defined
with) is therefore always sufficient, and the modelled recursion never
exhausts it. -/
theorem c10_sync_replication_terminates (h : Handler) (fs : FS) :
    ∃ p, sync_replication h fs = .ok p :=
  (sync_fuel_ok (missingCount fs + 1) h fs (by omega)).imp fun _ hp => hp.1

/-- C8: on a topology of `N ≥ 2` dense shards whose primaries are all
present, `remove_shard` succeeds, the new persisted mapping has exactly the
`N - 1` keys `0..N-2` (the new count is `max(existingIds)`), and
concatenating the new primaries in ascending id order yields the same corpus
as concatenating the old primaries in ascending id order before the call. -/
theorem c8_remove_shard_reconstruct (h : Handler) (fs : FS) (N : Nat) (m : Mapping)
    (hmap : fs.mapfile = some m) (hids : m.map Prod.fst = List.range N) (hN : 2 ≤ N)
    (hex : ∀ k, k < N → fsExists fs (.primary k) = true) :
    ∃ h' fs', remove_shard h fs = .ok h' fs' ∧
      h'.mapping.map Prod.fst = List.range (N - 1) ∧
      fs'.mapfile = some h'.mapping ∧
      ((List.range (N - 1)).map (fun i => (fsRead fs' (.primary i)).getD [])).flatten =
        ((List.range N).map (fun i => (fsRead fs (.primary i)).getD [])).flatten := by
  obtain ⟨n, rfl⟩ : ∃ n, N = n + 2 := ⟨N - 2, by omega⟩
  have hload : load_map fs = m := by
    rw [load_map, hmap]
    rfl
  have hread : load_data_from_shards { h with mapping := load_map fs } fs =
      .ok (((List.range (n + 2)).map (fun k => (fsRead fs (.primary k)).getD [])).flatten) := by
    show readConcat fs (({ h with mapping := load_map fs } : Handler).mapping.map Prod.fst) = _
    rw [show ({ h with mapping := load_map fs } : Handler).mapping = load_map fs from rfl,
      hload, hids]
    exact readConcat_ok (List.range (n + 2)) fs fun k hk => hex k (List.mem_range.mp hk)
  have hkeys : sortNats ((load_map fs).map Prod.fst) = List.range (n + 2) := by
    rw [hload, hids, sortNats_range]
  obtain ⟨fs1, hrem1, hrem2⟩ := removeLoop_ok (List.range (n + 2)) fs
    (fun k hk => hex k (List.mem_range.mp hk)) (List.nodup_range (n + 2))
  have hne : ¬(List.range (n + 2) = []) := by simp
  have hmax : maxNat (List.range (n + 2)) = n + 1 := maxNat_range_succ (n + 1)
  obtain ⟨spliced, hgen⟩ : ∃ s, generate_sharded_data (n + 1)
      (((List.range (n + 2)).map (fun k => (fsRead fs (.primary k)).getD [])).flatten) =
      .ok s := by
    rw [generate_eq _ (by omega)]
    exact ⟨_, rfl⟩
  have hmf1 : fs1.mapfile = some m := hrem2.trans hmap
  obtain ⟨h', fs', hfin, hids', hmf', hflat'⟩ := remove_finish_ok
    { h with mapping := load_map { fs1 with mapfile := none } }
    { fs1 with mapfile := none } (n + 1)
    (((List.range (n + 2)).map (fun k => (fsRead fs (.primary k)).getD [])).flatten)
    spliced rfl hgen
  refine ⟨h', fs', ?_, hids', hmf', hflat'⟩
  simp only [remove_shard, hread, hkeys, hrem1, hmax, hgen, hmf1]
  rw [if_neg hne]
  exact hfin

/-- C8 witness: removing a shard from the two-shard topology "A"/"B". -/
theorem c8_remove_shard_reconstruct_witness :
    fsC8.mapfile = some mC8 ∧ mC8.map Prod.fst = List.range 2 ∧ 2 ≤ 2 ∧
    (∀ k, k < 2 → fsExists fsC8 (.primary k) = true) ∧
    (∃ h' fs', remove_shard hC8 fsC8 = .ok h' fs' ∧
      h'.mapping.map Prod.fst = List.range (2 - 1) ∧
      fs'.mapfile = some h'.mapping ∧
      ((List.range (2 - 1)).map (fun i => (fsRead fs' (.primary i)).getD [])).flatten =
        ((List.range 2).map (fun i => (fsRead fsC8 (.primary i)).getD [])).flatten) :=
  ⟨rfl, by decide, by decide, by decide,
    c8_remove_shard_reconstruct hC8 fsC8 2 mC8 rfl (by decide) (by decide) (by decide)⟩
